import Mathlib

/-!
Shallow embedding of the affected-range/event model of `osv/models.py`:
the canonical event-stream representation of ranges, the per-ecosystem
event ordering, the bidirectional conversion between the canonical
flattened-event schema and the legacy paired `[introduced, fixed)` schema,
and the derivation of secondary indexes in the pre-put hook.

Machine-external collaborators (the ecosystem comparator registry, the
version-normalization helpers, the datastore) are passed as explicit
parameters.  String manipulation is done on the underlying character
lists so that every definition evaluates by kernel reduction.
-/

namespace OSV

/-- The `AffectedEvent` entity: a single `{type, value}` boundary marker.
Equality is structural (type and value), matching `ndb` model equality. -/
structure AffectedEvent where
  type : String
  value : String
deriving DecidableEq, Repr

/-- The `AffectedRange2` entity: a typed range holding a repo URL (empty string
when unset) and a flattened list of events. -/
structure AffectedRange2 where
  type : String
  repo_url : String
  events : List AffectedEvent
deriving DecidableEq, Repr

/-- The legacy (pre-0.8) `AffectedRange` message: a `{type, repo,
introduced, fixed}` pair.  Proto string fields default to the empty
string, which stands for "unset". -/
structure AffectedRangeLegacy where
  type : String
  repo : String
  introduced : String
  fixed : String
deriving DecidableEq, Repr

/-- The `Package` entity. -/
structure Package where
  ecosystem : String
  name : String
  purl : String
deriving DecidableEq, Repr

/-- The `AffectedPackage` entity (the parts the core logic reads). -/
structure AffectedPackage where
  package : Package
  ranges : List AffectedRange2
  versions : List String
deriving DecidableEq, Repr

/-- The `_check_valid_severity`: raises `ValueError` unless the severity is one
of LOW/MEDIUM/HIGH/CRITICAL. -/
def check_valid_severity (value : String) : Except String Unit :=
  if value = "LOW" ∨ value = "MEDIUM" ∨ value = "HIGH" ∨ value = "CRITICAL" then
    Except.ok ()
  else
    Except.error ("Invalid severity: " ++ value)

/-- The `_check_valid_range_type`: raises `ValueError` unless the range type is
one of GIT/SEMVER/ECOSYSTEM. -/
def check_valid_range_type (value : String) : Except String Unit :=
  if value = "GIT" ∨ value = "SEMVER" ∨ value = "ECOSYSTEM" then
    Except.ok ()
  else
    Except.error ("Invalid range type: " ++ value)

/-- The `_check_valid_event_type`: raises `ValueError` unless the event type is
one of introduced/fixed/limit. -/
def check_valid_event_type (value : String) : Except String Unit :=
  if value = "introduced" ∨ value = "fixed" ∨ value = "limit" then
    Except.ok ()
  else
    Except.error ("Invalid event type: " ++ value)

/-! ## Event ordering (`sorted_events`)

`sorted_events(ecosystem, range_type, events)` resolves a comparator for
the range (the built-in semver one for SEMVER, otherwise the registry
entry for the ecosystem).  The registry and the comparator internals live
outside this file's source, so the comparator is a parameter here: a sort
key into an arbitrary linear order. -/

/-- The `sorted_events`: GIT ranges are returned unchanged; otherwise all
events whose value is the magic "0" are removed (the Python loop removes
every such occurrence and remembers the last one), the remainder is sorted
(stably) by the comparator's sort key, and the remembered "0" event, if
any, is re-inserted at position 0. -/
def sorted_events {α : Type} [LinearOrder α] (key : String → α)
    (range_type : String) (events : List AffectedEvent) : List AffectedEvent :=
  if range_type = "GIT" then
    events
  else
    let zero_event := (events.filter (fun e => e.value == "0")).getLast?
    let rest := events.filter (fun e => e.value != "0")
    let rest := List.insertionSort (fun a b => key a.value ≤ key b.value) rest
    match zero_event with
    | some z => z :: rest
    | none => rest

/-- Modelled from the spec: the built-in semantic-version comparator
(`ecosystems.SemverEcosystem().sort_key`, whose module is not part of this
source file) returns a totally-ordered sort key following
semantic-version precedence; dotted numeric components are compared
lexicographically, most significant first. -/
def semverKey (v : String) : Lex (ℕ × Lex (ℕ × ℕ)) :=
  let comps := (splitDots v.data).map natOfDigits
  toLex (comps.headD 0, toLex ((comps.drop 1).headD 0, (comps.drop 2).headD 0))
where
  /-- Split a character list at every '.'. -/
  splitDots : List Char → List (List Char)
    | [] => [[]]
    | c :: cs =>
      if c = '.' then [] :: splitDots cs
      else
        match splitDots cs with
        | [] => [[c]]
        | t :: ts => (c :: t) :: ts
  /-- Numeric value of an all-digit component (0 otherwise). -/
  natOfDigits (cs : List Char) : ℕ :=
    if cs ≠ [] ∧ cs.all (fun c => c.isDigit) then
      cs.foldl (fun n c => n * 10 + (c.toNat - 48)) 0
    else 0

/-! ## Legacy → canonical merge (`update_from_vulnerability`, range part) -/

/-- The `introduced` event contributed by one legacy pair: an empty
introduced bound becomes the sentinel "0" (`affected_range.introduced or
'0'`). -/
def introEvent (p : AffectedRangeLegacy) : AffectedEvent :=
  ⟨"introduced", if p.introduced = "" then "0" else p.introduced⟩

/-- The `fixed` event contributed by one legacy pair, when it has one. -/
def fixedEvent (p : AffectedRangeLegacy) : AffectedEvent :=
  ⟨"fixed", p.fixed⟩

/-- Loop body of `update_from_vulnerability` for one legacy pair: append
its `introduced` event (unless already present), then its `fixed` event
when the pair has a fixed bound (unless already present). -/
def addPairEvents (events : List AffectedEvent) (p : AffectedRangeLegacy) :
    List AffectedEvent :=
  let events := if introEvent p ∈ events then events else events ++ [introEvent p]
  if p.fixed = "" then events
  else if fixedEvent p ∈ events then events
  else events ++ [fixedEvent p]

/-- The grouping key of a legacy pair: `(type name, repo)`. -/
def groupKey (p : AffectedRangeLegacy) : String × String :=
  (p.type, p.repo)

/-- The `events_by_type.setdefault((type, repo), [])` followed by in-place
mutation of the group's event list, on an insertion-ordered map. -/
def updEventsByType (m : List ((String × String) × List AffectedEvent))
    (p : AffectedRangeLegacy) : List ((String × String) × List AffectedEvent) :=
  match m with
  | [] => [(groupKey p, addPairEvents [] p)]
  | (k, evs) :: rest =>
    if k = groupKey p then (k, addPairEvents evs p) :: rest
    else (k, evs) :: updEventsByType rest p

/-- Range-merging part of `Bug.update_from_vulnerability` (lines 419-445):
the affected package's ranges are reset to `[]` (the previous ranges are
discarded), incoming legacy pairs are grouped by `(type, repo)` in
first-seen order, each group accumulates deduplicated events, and one
`AffectedRange2` is emitted per group, tagged with the repo URL only when
the type is GIT and a repo is present. -/
def update_from_vulnerability_ranges (prev : List AffectedRange2)
    (pairs : List AffectedRangeLegacy) : List AffectedRange2 :=
  let _ := prev
  (pairs.foldl updEventsByType []).map fun kv =>
    { type := kv.1.1
      repo_url := if kv.1.1 = "GIT" ∧ kv.1.2 ≠ "" then kv.1.2 else ""
      events := kv.2 }

/-! ## Canonical → legacy export (`_get_pre_0_8_affects`) -/

/-- A fresh `vulnerability_pb2.AffectedRange(type=..., repo=...)` with
unset (empty) `introduced`/`fixed`. -/
def freshRange (range_type repo : String) : AffectedRangeLegacy :=
  ⟨range_type, repo, "", ""⟩

/-- One step of the event cursor in `_get_pre_0_8_affects`.  State is
`(emitted pairs, current open pair)`. -/
def exportStep (range_type repo : String)
    (s : List AffectedRangeLegacy × AffectedRangeLegacy) (e : AffectedEvent) :
    List AffectedRangeLegacy × AffectedRangeLegacy :=
  let acc := s.1
  let cur := s.2
  if e.type = "introduced" then
    let s1 :=
      if cur.introduced ≠ "" ∧ range_type = "GIT" then
        (acc ++ [cur], freshRange range_type repo)
      else (acc, cur)
    if s1.2.introduced = "" then
      let v := if e.value = "0" then "" else e.value
      (s1.1, { s1.2 with introduced := v })
    else s1
  else if e.type = "fixed" then
    (acc ++ [{ cur with fixed := e.value }], freshRange range_type repo)
  else s

/-- End-of-range step: an open pair is emitted exactly when its
`introduced` bound is non-empty. -/
def exportFinish (s : List AffectedRangeLegacy × AffectedRangeLegacy) :
    List AffectedRangeLegacy :=
  if s.2.introduced ≠ "" then s.1 ++ [s.2] else s.1

/-- Cursor pass of `_get_pre_0_8_affects` over one already-sorted event
stream. -/
def exportPairs (range_type repo : String) (events : List AffectedEvent) :
    List AffectedRangeLegacy :=
  exportFinish (events.foldl (exportStep range_type repo)
    ([], freshRange range_type repo))

/-- The `_get_pre_0_8_affects`, one range: sort the flattened events, then
reconstruct `[introduced, fixed)` pairs with the cursor. -/
def get_pre_0_8_affects_range {α : Type} [LinearOrder α] (key : String → α)
    (r : AffectedRange2) : List AffectedRangeLegacy :=
  exportPairs r.type r.repo_url (sorted_events key r.type r.events)

/-- The `_get_pre_0_8_affects`, all ranges of the first affected package in
order. -/
def get_pre_0_8_affects {α : Type} [LinearOrder α] (key : String → α)
    (ranges : List AffectedRange2) : List AffectedRangeLegacy :=
  ranges.flatMap (get_pre_0_8_affects_range key)

/-- The value of the last `fixed` event of an event list, if any. -/
def lastFixedVal (evs : List AffectedEvent) : Option String :=
  ((evs.filter (fun e => e.type == "fixed")).getLast?).map (fun e => e.value)

/-- The `(type, repo)` group keys contributed by a pair list that are not
among the already-seen keys `ks`, in first-seen order. -/
def firstSeenNew (ks : List (String × String)) :
    List AffectedRangeLegacy → List (String × String)
  | [] => []
  | p :: ps =>
    if groupKey p ∈ ks then firstSeenNew ks ps
    else groupKey p :: firstSeenNew (ks ++ [groupKey p]) ps

/-- The `(type, repo)` group keys of a pair list in first-seen order. -/
def firstSeenKeys (pairs : List AffectedRangeLegacy) : List (String × String) :=
  firstSeenNew [] pairs

/-- The events one legacy pair contributes to its group when no
deduplication interferes: its introduced event, then its fixed event if
it has a fixed bound. -/
def pairEvents (p : AffectedRangeLegacy) : List AffectedEvent :=
  introEvent p :: (if p.fixed = "" then [] else [fixedEvent p])

/-! ## The `Bug` entity and its pre-put hook -/

/-- Word characters of the `\w` class (ASCII): letters, digits,
underscore. -/
def isWordChar (c : Char) : Bool :=
  c.isAlphanum || c == '_'

/-- The `re.split(r'\W+', s)`: pieces between maximal runs of non-word
characters (empty pieces appear at a leading or trailing separator run,
as in Python). -/
def splitNonWord (acc : List Char) (inSep : Bool) : List Char → List (List Char)
  | [] => [acc.reverse]
  | c :: cs =>
    if isWordChar c then splitNonWord (c :: acc) false cs
    else if inSep then splitNonWord acc true cs
    else acc.reverse :: splitNonWord [] true cs

/-- Lowercase a string (ASCII, character by character). -/
def lowerStr (s : String) : String :=
  String.mk (s.data.map Char.toLower)

/-- The `Bug._tokenize`: empty input yields no tokens; otherwise the lowercase
value split on non-word-character runs, plus the whole lowercase value. -/
def tokenize (value : String) : List String :=
  if value = "" then []
  else (splitNonWord [] false (lowerStr value).data).map String.mk ++ [lowerStr value]

/-- The `sorted(list(search_indices))` where `search_indices` is a set: the
distinct elements in ascending code-point order. -/
def dedupSort (l : List String) : List String :=
  List.insertionSort (fun a b => a.data ≤ b.data) l.dedup

/-- Very large fake version used when there is no fix
(`Bug._NOT_FIXED_SEMVER`). -/
def NOT_FIXED_SEMVER : String := "999999.999999.999999"

/-- Python's falsy fallback `fixed_version or self._NOT_FIXED_SEMVER`
(line 353): the sentinel replaces an absent value and also an empty one. -/
def orNotFixed : Option String → String
  | some v => if v = "" then NOT_FIXED_SEMVER else v
  | none => NOT_FIXED_SEMVER

/-- The derived fields recomputed by the affected-package loop of
`Bug._pre_put_hook`. -/
structure DerivedFields where
  affected_fuzzy : List String
  semver_fixed_indexes : List String
  has_affected : Bool
  is_fixed : Bool
deriving DecidableEq, Repr

/-- Inner event loop of the hook: any `fixed` event sets `is_fixed` and
overwrites `fixed_version`. -/
def eventFold (s : Bool × Option String) (e : AffectedEvent) : Bool × Option String :=
  if e.type = "fixed" then (true, some e.value) else s

/-- Per-range body of the hook's loop.  `n` is
`semver_index.normalize` (external), passed as a parameter. -/
def rangeFold (n : String → String) (s : DerivedFields) (r : AffectedRange2) :
    DerivedFields :=
  let fv := r.events.foldl eventFold (s.is_fixed, none)
  let s := { s with is_fixed := fv.1 }
  let s :=
    if r.type = "SEMVER" then
      { s with semver_fixed_indexes :=
          s.semver_fixed_indexes ++ [n (orNotFixed fv.2)] }
    else s
  { s with has_affected := s.has_affected || (r.type = "SEMVER" || r.type = "ECOSYSTEM") }

/-- Per-package body of the hook's loop.  `nt` is `bug.normalize_tags`
(external), passed as a parameter. -/
def pkgFold (nt : List String → List String) (n : String → String)
    (s : DerivedFields) (p : AffectedPackage) : DerivedFields :=
  let s := { s with
    affected_fuzzy := s.affected_fuzzy ++ nt p.versions
    has_affected := s.has_affected || !p.versions.isEmpty }
  p.ranges.foldl (rangeFold n) s

/-- The affected-package loop of `Bug._pre_put_hook` (lines 333-356),
starting from freshly reset derived fields. -/
def deriveFields (nt : List String → List String) (n : String → String)
    (pkgs : List AffectedPackage) : DerivedFields :=
  pkgs.foldl (pkgFold nt n) ⟨[], [], false, false⟩

/-- The `SourceRepository` (the part the hook reads). -/
structure SourceRepository where
  dbPfx : String
deriving DecidableEq, Repr

/-- Modelled from the spec: `sources.parse_source_id` (module not part of
this source file) splits a source identifier of the form
`<source>:<path/to/source>` into the source name and the path. -/
def parse_source_id (source_id : String) : String × String :=
  (String.mk (source_id.data.takeWhile (fun c => c ≠ ':')),
   String.mk ((source_id.data.dropWhile (fun c => c ≠ ':')).drop 1))

/-- The `Bug` entity (the fields its hook and converters read or write).
Unset string fields are the empty string; `key` and `last_modified` are
`none` when unset. -/
structure Bug where
  db_id : String
  key : Option String
  source_id : String
  source : String
  severity : String
  project : List String
  ecosystem : List String
  purl : List String
  search_indices : List String
  affected_fuzzy : List String
  semver_fixed_indexes : List String
  has_affected : Bool
  is_fixed : Bool
  last_modified : Option Nat
  affected_packages : List AffectedPackage
deriving DecidableEq, Repr

/-- The `Bug.id()`: the display id when set, else the storage key (prefixed
with `OSV-` when it is all-digits-led); touching an absent key is a
(non-`ValueError`) runtime failure. -/
def Bug.bugId (b : Bug) : Except String String :=
  if b.db_id ≠ "" then pure b.db_id
  else
    match b.key with
    | none => Except.error "AttributeError"
    | some k =>
      pure (if (match k.data with | c :: _ => c.isDigit | [] => false) then
        "OSV-" ++ k else k)

/-- ndb assigns `severity` through `_check_valid_severity`; an invalid
value raises before the entity can be persisted. -/
def Bug.set_severity (b : Bug) (value : String) : Except String Bug := do
  check_valid_severity value
  pure { b with severity := value }

/-- ndb assigns `AffectedRange2.type` through `_check_valid_range_type`. -/
def AffectedRange2.set_type (r : AffectedRange2) (value : String) :
    Except String AffectedRange2 := do
  check_valid_range_type value
  pure { r with type := value }

/-- ndb assigns `AffectedEvent.type` through `_check_valid_event_type`. -/
def AffectedEvent.set_type (e : AffectedEvent) (value : String) :
    Except String AffectedEvent := do
  check_valid_event_type value
  pure { e with type := value }

/-- The pure field-updating part of `Bug._pre_put_hook` (lines 306-362):
search indices, `project`/`ecosystem`/`purl` projections, the derived
fields, `last_modified` defaulting, and the `source` recomputation.
`bid` is the value of `self.id()` and `now` of `utcnow()`. -/
def hookDerive (nt : List String → List String) (n : String → String)
    (now : Nat) (bid : String) (b : Bug) : Bug :=
  let b :=
    if !b.affected_packages.isEmpty then
      { b with
        project := (b.affected_packages.map (fun p => p.package.name)).filter
          (fun s => s != "")
        ecosystem := (b.affected_packages.map (fun p => p.package.ecosystem)).filter
          (fun s => s != "")
        purl := (b.affected_packages.map (fun p => p.package.purl)).filter
          (fun s => s != "") }
    else b
  let toks :=
    if !b.affected_packages.isEmpty then
      tokenize bid ++ b.project.flatMap tokenize ++ b.ecosystem.flatMap tokenize
    else tokenize bid
  let b := { b with search_indices := dedupSort toks }
  let d := deriveFields nt n b.affected_packages
  let b := { b with
    affected_fuzzy := d.affected_fuzzy
    semver_fixed_indexes := d.semver_fixed_indexes
    has_affected := d.has_affected
    is_fixed := d.is_fixed }
  let b := if b.last_modified.isNone then { b with last_modified := some now } else b
  if b.source_id ≠ "" then { b with source := (parse_source_id b.source_id).1 }
  else b

/-- The `Bug._pre_put_hook`: recompute the derived fields, then validate
source and id, then allocate the storage key when absent.  `get_repo` is
`get_source_repository` (a datastore lookup), passed as a parameter. -/
def pre_put_hook (nt : List String → List String) (n : String → String)
    (get_repo : String → Option SourceRepository) (now : Nat) (b : Bug) :
    Except String Bug := do
  let bid ← b.bugId
  let b := hookDerive nt n now bid b
  if b.source = "" then throw "Source not specified for Bug."
  if b.db_id = "" then throw "DB ID not specified for Bug."
  match b.key with
  | some _ => pure b
  | none =>
    match get_repo b.source with
    | none => throw ("Invalid source " ++ b.source)
    | some repo =>
      let key_id :=
        if repo.dbPfx ≠ "" ∧ repo.dbPfx.data.isPrefixOf b.db_id.data then b.db_id
        else b.source ++ ":" ++ b.db_id
      pure { b with key := some key_id }

example :
    sorted_events semverKey "SEMVER"
      [⟨"fixed", "2.0.0"⟩, ⟨"introduced", "0"⟩, ⟨"introduced", "1.5.0"⟩] =
      [⟨"introduced", "0"⟩, ⟨"introduced", "1.5.0"⟩, ⟨"fixed", "2.0.0"⟩] := by
  decide

example : tokenize "GHSA-1234" = ["ghsa", "1234", "ghsa-1234"] := by decide

example :
    deriveFields id id [⟨⟨"npm", "left-pad", ""⟩,
      [⟨"SEMVER", "", [⟨"introduced", "1.0.0"⟩]⟩], []⟩] =
      ⟨[], [NOT_FIXED_SEMVER], true, false⟩ := by
  decide

example :
    update_from_vulnerability_ranges []
      [⟨"GIT", "r", "a", "b"⟩, ⟨"GIT", "r", "c", ""⟩] =
      [⟨"GIT", "r", [⟨"introduced", "a"⟩, ⟨"fixed", "b"⟩, ⟨"introduced", "c"⟩]⟩] := by
  decide

example :
    get_pre_0_8_affects semverKey
      [⟨"GIT", "r", [⟨"introduced", "a"⟩, ⟨"fixed", "b"⟩, ⟨"introduced", "c"⟩]⟩] =
      [⟨"GIT", "r", "a", "b"⟩, ⟨"GIT", "r", "c", ""⟩] := by
  decide

/-! ## Helper lemmas -/

/-- The sort relation used by `sorted_events` is total. -/
theorem eventLE_total {α : Type} [LinearOrder α] (key : String → α) :
    IsTotal AffectedEvent (fun a b => key a.value ≤ key b.value) :=
  ⟨fun a b => le_total (key a.value) (key b.value)⟩

/-- The sort relation used by `sorted_events` is transitive. -/
theorem eventLE_trans {α : Type} [LinearOrder α] (key : String → α) :
    IsTrans AffectedEvent (fun a b => key a.value ≤ key b.value) :=
  ⟨fun _ _ _ hab hbc => le_trans hab hbc⟩

/-- On a non-GIT range type, `sorted_events` unfolds to the sentinel
re-insertion over the stable sort of the non-sentinel events. -/
theorem sorted_events_not_git {α : Type} [LinearOrder α] (key : String → α)
    (rt : String) (evs : List AffectedEvent) (h : rt ≠ "GIT") :
    sorted_events key rt evs =
      ((evs.filter (fun e => e.value == "0")).getLast?).toList ++
        List.insertionSort (fun a b => key a.value ≤ key b.value)
          (evs.filter (fun e => e.value != "0")) := by
  unfold sorted_events
  rw [if_neg h]
  cases (evs.filter (fun e => e.value == "0")).getLast? <;> simp

/-- A list with no sentinel events sorts to a list with no sentinel
events. -/
theorem countP_zero_insertionSort {α : Type} [LinearOrder α] (key : String → α)
    (evs : List AffectedEvent) :
    (List.insertionSort (fun a b => key a.value ≤ key b.value)
      (evs.filter (fun e => e.value != "0"))).countP (fun e => e.value == "0") = 0 := by
  rw [List.Perm.countP_eq _ (List.perm_insertionSort _ _)]
  rw [List.countP_eq_zero]
  intro e he
  have := List.of_mem_filter he
  simpa using this

/-- A key listed by `firstSeenNew ks` is never in `ks`. -/
theorem firstSeenNew_not_mem (k : String × String) :
    ∀ (ps : List AffectedRangeLegacy) (ks : List (String × String)),
      k ∈ firstSeenNew ks ps → k ∉ ks := by
  intro ps
  induction ps with
  | nil => intro ks h; simp [firstSeenNew] at h
  | cons p ps ih =>
    intro ks h
    by_cases hp : groupKey p ∈ ks
    · rw [firstSeenNew, if_pos hp] at h
      exact ih ks h
    · rw [firstSeenNew, if_neg hp] at h
      rcases List.mem_cons.mp h with h1 | h1
      · exact h1 ▸ hp
      · intro hk
        exact ih _ h1 (List.mem_append_left _ hk)

/-- The `updEventsByType` on a fresh key appends a new group at the end. -/
theorem updEventsByType_not_mem (m : List ((String × String) × List AffectedEvent))
    (p : AffectedRangeLegacy) (h : groupKey p ∉ m.map Prod.fst) :
    updEventsByType m p = m ++ [(groupKey p, addPairEvents [] p)] := by
  induction m with
  | nil => rfl
  | cons kv rest ih =>
    obtain ⟨k, evs⟩ := kv
    simp only [List.map_cons, List.mem_cons] at h
    push_neg at h
    have hk : ¬(k = groupKey p) := fun hh => h.1 hh.symm
    rw [updEventsByType, if_neg hk, ih h.2]
    simp

/-- The `updEventsByType` on an already-seen key updates that group in place
(keys being distinct, exactly one entry matches). -/
theorem updEventsByType_mem (m : List ((String × String) × List AffectedEvent))
    (p : AffectedRangeLegacy) (h : groupKey p ∈ m.map Prod.fst)
    (hnd : (m.map Prod.fst).Nodup) :
    updEventsByType m p =
      m.map (fun kv => if kv.1 = groupKey p then (kv.1, addPairEvents kv.2 p) else kv) := by
  induction m with
  | nil => simp at h
  | cons kv rest ih =>
    obtain ⟨k, evs⟩ := kv
    simp only [List.map_cons] at hnd h
    by_cases hk : k = groupKey p
    · have hrest : ∀ kv ∈ rest, ¬(kv.1 = groupKey p) := by
        intro kv hkv hq
        have hmem : groupKey p ∈ rest.map Prod.fst :=
          hq ▸ List.mem_map_of_mem Prod.fst hkv
        rw [← hk] at hmem
        exact (List.nodup_cons.mp hnd).1 hmem
      rw [updEventsByType, if_pos hk]
      simp only [List.map_cons, if_pos hk]
      have hid : rest.map
          (fun kv => if kv.1 = groupKey p then (kv.1, addPairEvents kv.2 p) else kv)
          = rest := by
        rw [List.map_congr_left (fun kv hkv => if_neg (hrest kv hkv))]
        simp
      rw [hid]
    · have h2 : groupKey p ∈ rest.map Prod.fst := by
        rcases List.mem_cons.mp h with h1 | h1
        · exact absurd h1.symm hk
        · exact h1
      rw [updEventsByType, if_neg hk, ih h2 (List.nodup_cons.mp hnd).2]
      simp [if_neg hk]

/-- The grouping fold, from any well-formed intermediate state: existing
groups accumulate their pairs' events in place, and new keys open new
groups at the end in first-seen order. -/
theorem foldl_updEventsByType (pairs : List AffectedRangeLegacy) :
    ∀ (m : List ((String × String) × List AffectedEvent)),
      (m.map Prod.fst).Nodup →
      pairs.foldl updEventsByType m =
        m.map (fun kv =>
          (kv.1, (pairs.filter (fun p => groupKey p = kv.1)).foldl addPairEvents kv.2))
        ++ (firstSeenNew (m.map Prod.fst) pairs).map
          (fun k => (k, (pairs.filter (fun p => groupKey p = k)).foldl addPairEvents [])) := by
  induction pairs with
  | nil =>
    intro m _
    simp [firstSeenNew]
  | cons p ps ih =>
    intro m hnd
    by_cases hin : groupKey p ∈ m.map Prod.fst
    · rw [List.foldl_cons, updEventsByType_mem m p hin hnd]
      have hkeys : (m.map (fun kv =>
          if kv.1 = groupKey p then (kv.1, addPairEvents kv.2 p) else kv)).map Prod.fst
          = m.map Prod.fst := by
        rw [List.map_map]
        exact List.map_congr_left (fun kv _ => by
          by_cases hkv : kv.1 = groupKey p <;> simp [Function.comp, hkv])
      rw [ih _ (hkeys ▸ hnd)]
      rw [hkeys]
      congr 1
      · rw [List.map_map]
        refine List.map_congr_left (fun kv hkv0 => ?_)
        by_cases hkv : kv.1 = groupKey p
        · simp [Function.comp, hkv, List.filter_cons, List.foldl_cons]
        · have hne : ¬(groupKey p = kv.1) := fun hh => hkv hh.symm
          simp [Function.comp, hkv, List.filter_cons, hne]
      · rw [firstSeenNew, if_pos hin]
        refine List.map_congr_left (fun k hkmem => ?_)
        have hne : ¬(groupKey p = k) := fun hh =>
          (firstSeenNew_not_mem k ps (m.map Prod.fst) hkmem) (hh ▸ hin)
        simp [List.filter_cons, hne]
    · rw [List.foldl_cons, updEventsByType_not_mem m p hin]
      have hkeys : ((m ++ [(groupKey p, addPairEvents [] p)]).map Prod.fst)
          = m.map Prod.fst ++ [groupKey p] := by simp
      have hnd2 : ((m ++ [(groupKey p, addPairEvents [] p)]).map Prod.fst).Nodup := by
        rw [hkeys]
        simp [List.nodup_append, hin, hnd]
      rw [ih _ hnd2, hkeys, firstSeenNew, if_neg hin]
      simp only [List.map_append, List.map_cons]
      rw [List.append_assoc]
      congr 1
      · refine List.map_congr_left (fun kv hkv => ?_)
        have hne : ¬(groupKey p = kv.1) := fun hh =>
          hin (hh ▸ List.mem_map_of_mem Prod.fst hkv)
        simp [List.filter_cons, hne]
      · simp only [List.map_cons, List.singleton_append, List.cons_append,
          List.nil_append]
        congr 1
        · simp [List.filter_cons]
        · refine List.map_congr_left (fun k hkmem => ?_)
          have hnotin := firstSeenNew_not_mem k ps (m.map Prod.fst ++ [groupKey p]) hkmem
          have hne : ¬(groupKey p = k) := fun hh =>
            hnotin (List.mem_append_right _ (hh ▸ List.mem_singleton_self _))
          simp [List.filter_cons, hne]

/-- Membership in the events produced by one merge step. -/
theorem mem_addPairEvents (e : AffectedEvent) (evs : List AffectedEvent)
    (p : AffectedRangeLegacy) :
    e ∈ addPairEvents evs p ↔
      e ∈ evs ∨ e = introEvent p ∨ (p.fixed ≠ "" ∧ e = fixedEvent p) := by
  by_cases hi : introEvent p ∈ evs
  · by_cases hf : p.fixed = ""
    · have he : addPairEvents evs p = evs := by simp [addPairEvents, hi, hf]
      rw [he]
      refine ⟨fun h => Or.inl h, fun h => ?_⟩
      rcases h with h | h | ⟨hc, _⟩
      · exact h
      · exact h ▸ hi
      · exact absurd hf hc
    · by_cases hfe : fixedEvent p ∈ evs
      · have he : addPairEvents evs p = evs := by simp [addPairEvents, hi, hf, hfe]
        rw [he]
        refine ⟨fun h => Or.inl h, fun h => ?_⟩
        rcases h with h | h | ⟨_, h⟩
        · exact h
        · exact h ▸ hi
        · exact h ▸ hfe
      · have he : addPairEvents evs p = evs ++ [fixedEvent p] := by
          simp [addPairEvents, hi, hf, hfe]
        rw [he, List.mem_append, List.mem_singleton]
        constructor
        · rintro (h | h)
          · exact Or.inl h
          · exact Or.inr (Or.inr ⟨hf, h⟩)
        · rintro (h | h | ⟨_, h⟩)
          · exact Or.inl h
          · exact Or.inl (h ▸ hi)
          · exact Or.inr h
  · by_cases hf : p.fixed = ""
    · have he : addPairEvents evs p = evs ++ [introEvent p] := by
        simp [addPairEvents, hi, hf]
      rw [he, List.mem_append, List.mem_singleton]
      constructor
      · rintro (h | h)
        · exact Or.inl h
        · exact Or.inr (Or.inl h)
      · rintro (h | h | ⟨hc, _⟩)
        · exact Or.inl h
        · exact Or.inr h
        · exact absurd hf hc
    · have hne : fixedEvent p ≠ introEvent p := by
        intro h
        exact absurd (congrArg AffectedEvent.type h) (by simp [fixedEvent, introEvent])
      by_cases hfe : fixedEvent p ∈ evs
      · have he : addPairEvents evs p = evs ++ [introEvent p] := by
          simp [addPairEvents, hi, hf, List.mem_append, hfe]
        rw [he, List.mem_append, List.mem_singleton]
        constructor
        · rintro (h | h)
          · exact Or.inl h
          · exact Or.inr (Or.inl h)
        · rintro (h | h | ⟨_, h⟩)
          · exact Or.inl h
          · exact Or.inr h
          · exact Or.inl (h ▸ hfe)
      · have he : addPairEvents evs p = (evs ++ [introEvent p]) ++ [fixedEvent p] := by
          simp [addPairEvents, hi, hf, List.mem_append, hfe, hne]
        rw [he, List.mem_append, List.mem_append, List.mem_singleton,
          List.mem_singleton]
        constructor
        · rintro ((h | h) | h)
          · exact Or.inl h
          · exact Or.inr (Or.inl h)
          · exact Or.inr (Or.inr ⟨hf, h⟩)
        · rintro (h | h | ⟨_, h⟩)
          · exact Or.inl (Or.inl h)
          · exact Or.inl (Or.inr h)
          · exact Or.inr h

/-- One merge step preserves duplicate-freedom of the event list. -/
theorem addPairEvents_nodup (evs : List AffectedEvent) (p : AffectedRangeLegacy)
    (h : evs.Nodup) : (addPairEvents evs p).Nodup := by
  by_cases hi : introEvent p ∈ evs
  · by_cases hf : p.fixed = ""
    · simpa [addPairEvents, hi, hf] using h
    · by_cases hfe : fixedEvent p ∈ evs
      · simpa [addPairEvents, hi, hf, hfe] using h
      · have he : addPairEvents evs p = evs ++ [fixedEvent p] := by
          simp [addPairEvents, hi, hf, hfe]
        rw [he]
        simp [List.nodup_append, h, hfe]
  · by_cases hf : p.fixed = ""
    · have he : addPairEvents evs p = evs ++ [introEvent p] := by
        simp [addPairEvents, hi, hf]
      rw [he]
      simp [List.nodup_append, h, hi]
    · have hne : fixedEvent p ≠ introEvent p := by
        intro hh
        exact absurd (congrArg AffectedEvent.type hh) (by simp [fixedEvent, introEvent])
      have hnd1 : (evs ++ [introEvent p]).Nodup := by
        simp [List.nodup_append, h, hi]
      by_cases hfe : fixedEvent p ∈ evs
      · have he : addPairEvents evs p = evs ++ [introEvent p] := by
          simp [addPairEvents, hi, hf, List.mem_append, hfe]
        rw [he]
        exact hnd1
      · have he : addPairEvents evs p = (evs ++ [introEvent p]) ++ [fixedEvent p] := by
          simp [addPairEvents, hi, hf, List.mem_append, hfe, hne]
        rw [he]
        have hfe2 : fixedEvent p ∉ evs ++ [introEvent p] := by
          simp [List.mem_append, hfe, hne]
        simp [List.nodup_append, hnd1, hfe2]
        exact ⟨h, fun hh => hne hh.symm, hi, hfe⟩

/-- The merged event list of a group is duplicate-free. -/
theorem foldl_addPairEvents_nodup (ps : List AffectedRangeLegacy) :
    ∀ evs : List AffectedEvent, evs.Nodup → (ps.foldl addPairEvents evs).Nodup := by
  induction ps with
  | nil => intro evs h; exact h
  | cons p ps ih =>
    intro evs h
    rw [List.foldl_cons]
    exact ih _ (addPairEvents_nodup evs p h)

/-- Membership in a group's merged event list: exactly the introduced
events (with empty defaulted to "0") and specified fixed events of the
folded pairs. -/
theorem mem_foldl_addPairEvents (e : AffectedEvent) (ps : List AffectedRangeLegacy) :
    ∀ evs : List AffectedEvent,
      e ∈ ps.foldl addPairEvents evs ↔
        e ∈ evs ∨ ∃ p ∈ ps, e = introEvent p ∨ (p.fixed ≠ "" ∧ e = fixedEvent p) := by
  induction ps with
  | nil => intro evs; simp
  | cons p ps ih =>
    intro evs
    rw [List.foldl_cons, ih (addPairEvents evs p)]
    rw [mem_addPairEvents]
    constructor
    · rintro ((h | h) | ⟨q, hq, hc⟩)
      · exact Or.inl h
      · exact Or.inr ⟨p, List.mem_cons_self p ps, h⟩
      · exact Or.inr ⟨q, List.mem_cons_of_mem p hq, hc⟩
    · rintro (h | ⟨q, hq, hc⟩)
      · exact Or.inl (Or.inl h)
      · rcases List.mem_cons.mp hq with rfl | hq2
        · exact Or.inl (Or.inr hc)
        · exact Or.inr ⟨q, hq2, hc⟩

/-- The `hookDerive` leaves the hook's own inputs alone and resolves
`last_modified` and `source` as the hook does. -/
theorem hookDerive_proj (nt : List String → List String) (n : String → String)
    (now : Nat) (bid : String) (b : Bug) :
    (hookDerive nt n now bid b).db_id = b.db_id
    ∧ (hookDerive nt n now bid b).key = b.key
    ∧ (hookDerive nt n now bid b).source_id = b.source_id
    ∧ (hookDerive nt n now bid b).affected_packages = b.affected_packages
    ∧ (hookDerive nt n now bid b).last_modified = some (b.last_modified.getD now)
    ∧ (hookDerive nt n now bid b).source =
        (if b.source_id ≠ "" then (parse_source_id b.source_id).1 else b.source) := by
  cases hl : b.last_modified <;>
    by_cases h1 : b.affected_packages.isEmpty <;>
      by_cases h3 : b.source_id = "" <;>
        simp [hookDerive, hl, h1, h3]

/-- Running the pure derivation part twice (with any clock values) is the
same as running it once. -/
theorem hookDerive_idem (nt : List String → List String) (n : String → String)
    (now now' : Nat) (bid : String) (b : Bug) :
    hookDerive nt n now' bid (hookDerive nt n now bid b) = hookDerive nt n now bid b := by
  cases b with
  | mk db_id key source_id source severity project ecosystem purl si af sfi ha isf lm pkgs =>
    by_cases h1 : pkgs.isEmpty = true <;> by_cases h3 : source_id = "" <;>
      cases lm <;> simp [hookDerive, h1, h3]

/-- The derivation part never reads or writes the storage key. -/
theorem hookDerive_key_comm (nt : List String → List String) (n : String → String)
    (now : Nat) (bid : String) (c : Bug) (K : Option String) :
    hookDerive nt n now bid { c with key := K } =
      { hookDerive nt n now bid c with key := K } := by
  cases c with
  | mk db_id key source_id source severity project ecosystem purl si af sfi ha isf lm pkgs =>
    by_cases h1 : pkgs.isEmpty = true <;> by_cases h3 : source_id = "" <;>
      cases lm <;> simp [hookDerive, h1, h3]

/-- The `sorted(list(set(...)))` output is sorted (by code points). -/
theorem dedupSort_sorted (l : List String) :
    List.Sorted (fun x y : String => x.data ≤ y.data) (dedupSort l) := by
  have ht : IsTotal String (fun x y : String => x.data ≤ y.data) :=
    ⟨fun a b => le_total a.data b.data⟩
  have htr : IsTrans String (fun x y : String => x.data ≤ y.data) :=
    ⟨fun _ _ _ h1 h2 => le_trans h1 h2⟩
  exact List.sorted_insertionSort _ _

/-- The `sorted(list(set(...)))` output is duplicate-free. -/
theorem dedupSort_nodup (l : List String) : (dedupSort l).Nodup :=
  ((List.perm_insertionSort _ _).nodup_iff).mpr (List.nodup_dedup l)

/-- The search indices computed by the derivation part. -/
theorem hookDerive_search (nt : List String → List String) (n : String → String)
    (now : Nat) (bid : String) (b : Bug) :
    (hookDerive nt n now bid b).search_indices =
      dedupSort (if !b.affected_packages.isEmpty then
        tokenize bid
          ++ ((b.affected_packages.map (fun p => p.package.name)).filter
              (fun t => t != "")).flatMap tokenize
          ++ ((b.affected_packages.map (fun p => p.package.ecosystem)).filter
              (fun t => t != "")).flatMap tokenize
        else tokenize bid) := by
  cases hl : b.last_modified <;> by_cases h1 : b.affected_packages.isEmpty = true <;>
    by_cases h3 : b.source_id = "" <;> simp [hookDerive, hl, h1, h3]

/-- A hook-derived record with a key assigned passes the hook again
unchanged. -/
theorem hook_second_run_new_key (nt : List String → List String)
    (n : String → String) (gr : String → Option SourceRepository)
    (now now' : Nat) (b : Bug) (K : String)
    (hdb : b.db_id ≠ "")
    (hcs : (hookDerive nt n now b.db_id b).source ≠ "") :
    pre_put_hook nt n gr now' { hookDerive nt n now b.db_id b with key := some K }
      = Except.ok { hookDerive nt n now b.db_id b with key := some K } := by
  have hb1bid : Bug.bugId { hookDerive nt n now b.db_id b with key := some K }
      = Except.ok b.db_id := by
    simp [Bug.bugId, (hookDerive_proj nt n now b.db_id b).1, hdb, pure, Except.pure]
  have hfix : hookDerive nt n now' b.db_id
      { hookDerive nt n now b.db_id b with key := some K }
      = { hookDerive nt n now b.db_id b with key := some K } := by
    rw [hookDerive_key_comm, hookDerive_idem]
  have hdbc : ¬({ hookDerive nt n now b.db_id b with key := some K }.db_id = "") := by
    simp [(hookDerive_proj nt n now b.db_id b).1, hdb]
  have hcs2 : ¬({ hookDerive nt n now b.db_id b with key := some K }.source = "") := by
    simpa using hcs
  simp [pre_put_hook, hb1bid, Bind.bind, Except.bind, pure, Except.pure, throw,
    throwThe, MonadExceptOf.throw, hfix, hcs2, hdbc]

/-- A hook-derived record that already had a key passes the hook again
unchanged. -/
theorem hook_second_run_kept_key (nt : List String → List String)
    (n : String → String) (gr : String → Option SourceRepository)
    (now now' : Nat) (b : Bug) (k0 : String)
    (hdb : b.db_id ≠ "")
    (hcs : (hookDerive nt n now b.db_id b).source ≠ "")
    (hk : b.key = some k0) :
    pre_put_hook nt n gr now' (hookDerive nt n now b.db_id b)
      = Except.ok (hookDerive nt n now b.db_id b) := by
  have hb1bid : Bug.bugId (hookDerive nt n now b.db_id b) = Except.ok b.db_id := by
    simp [Bug.bugId, (hookDerive_proj nt n now b.db_id b).1, hdb, pure, Except.pure]
  have hfix : hookDerive nt n now' b.db_id (hookDerive nt n now b.db_id b)
      = hookDerive nt n now b.db_id b := hookDerive_idem nt n now now' b.db_id b
  have hdbc : ¬((hookDerive nt n now b.db_id b).db_id = "") := by
    rw [(hookDerive_proj nt n now b.db_id b).1]
    exact hdb
  have hck : (hookDerive nt n now b.db_id b).key = some k0 := by
    rw [(hookDerive_proj nt n now b.db_id b).2.1, hk]
  simp [pre_put_hook, hb1bid, Bind.bind, Except.bind, pure, Except.pure, throw,
    throwThe, MonadExceptOf.throw, hfix, hcs, hdbc, hck]

/-- The `firstSeenNew` is empty once every key is already seen. -/
theorem firstSeenNew_all_seen (ps : List AffectedRangeLegacy) :
    ∀ ks, (∀ p ∈ ps, groupKey p ∈ ks) → firstSeenNew ks ps = [] := by
  induction ps with
  | nil => intro ks _; rfl
  | cons p ps ih =>
    intro ks h
    rw [firstSeenNew, if_pos (h p (List.mem_cons_self p ps))]
    exact ih ks (fun q hq => h q (List.mem_cons_of_mem p hq))

/-- When no event is skipped as a duplicate, one merge step appends the
pair's event block. -/
theorem addPairEvents_clean (evs : List AffectedEvent) (p : AffectedRangeLegacy)
    (hnd : (evs ++ pairEvents p).Nodup) :
    addPairEvents evs p = evs ++ pairEvents p := by
  rw [List.nodup_append] at hnd
  obtain ⟨_, hr, hdisj⟩ := hnd
  have hintro : introEvent p ∉ evs := by
    intro hmem
    exact hdisj hmem (by simp [pairEvents])
  by_cases hf : p.fixed = ""
  · have : pairEvents p = [introEvent p] := by simp [pairEvents, hf]
    rw [this]
    simp [addPairEvents, hintro, hf]
  · have hpe : pairEvents p = [introEvent p, fixedEvent p] := by
      simp [pairEvents, hf]
    rw [hpe]
    have hfx : fixedEvent p ∉ evs := by
      intro hmem
      exact hdisj hmem (by simp [hpe])
    have hfi : fixedEvent p ≠ introEvent p := by
      rw [hpe] at hr
      intro hh
      simp [List.nodup_cons, hh] at hr
    have hfx2 : fixedEvent p ∉ evs ++ [introEvent p] := by
      simp [List.mem_append, hfx, hfi]
    simp [addPairEvents, hintro, hf, hfx2, List.mem_append, hfx, hfi]

/-- When the accumulated block concatenation is duplicate-free, the merge
fold is exactly the block concatenation. -/
theorem foldl_addPairEvents_clean (pairs : List AffectedRangeLegacy) :
    ∀ evs : List AffectedEvent,
      (evs ++ pairs.flatMap pairEvents).Nodup →
      pairs.foldl addPairEvents evs = evs ++ pairs.flatMap pairEvents := by
  induction pairs with
  | nil => intro evs _; simp
  | cons p ps ih =>
    intro evs hnd
    rw [List.foldl_cons]
    have hnd1 : ((evs ++ pairEvents p) ++ ps.flatMap pairEvents).Nodup := by
      simpa [List.append_assoc] using hnd
    have hstep : addPairEvents evs p = evs ++ pairEvents p :=
      addPairEvents_clean evs p (hnd1.of_append_left)
    rw [hstep, ih (evs ++ pairEvents p) hnd1]
    simp [List.append_assoc]

/-- A GIT re-open on an open cursor behaves like a step from a fresh
cursor with the open pair already emitted. -/
theorem exportStep_reopen (repo : String) (e : AffectedEvent)
    (he : e.type = "introduced") (acc : List AffectedRangeLegacy)
    (cur : AffectedRangeLegacy) (hcur : cur.introduced ≠ "") :
    exportStep "GIT" repo (acc, cur) e =
      exportStep "GIT" repo (acc ++ [cur], freshRange "GIT" repo) e := by
  simp [exportStep, freshRange, he, hcur]

/-- The export cursor maps clean event blocks back to their pairs. -/
theorem export_blocks (rt repo : String) :
    ∀ (pairs : List AffectedRangeLegacy) (acc : List AffectedRangeLegacy),
      (∀ p ∈ pairs, p.type = rt ∧ p.repo = repo ∧ p.introduced ≠ "" ∧
        p.introduced ≠ "0") →
      (rt = "GIT" ∨ ∀ p ∈ pairs.dropLast, p.fixed ≠ "") →
      exportFinish ((pairs.flatMap pairEvents).foldl (exportStep rt repo)
        (acc, freshRange rt repo)) = acc ++ pairs := by
  intro pairs
  induction pairs with
  | nil =>
    intro acc _ _
    simp [exportFinish, freshRange]
  | cons p ps ih =>
    intro acc h1 h3
    obtain ⟨hpt, hpr, hpi, hpi0⟩ := h1 p (List.mem_cons_self p ps)
    have hstep1 : exportStep rt repo (acc, freshRange rt repo) (introEvent p) =
        (acc, ⟨rt, repo, p.introduced, ""⟩) := by
      simp [exportStep, freshRange, introEvent, hpi, hpi0]
    have hpeq : (⟨rt, repo, p.introduced, p.fixed⟩ : AffectedRangeLegacy) = p := by
      cases p
      simp_all
    by_cases hf : p.fixed = ""
    · have hpe : pairEvents p = [introEvent p] := by simp [pairEvents, hf]
      cases ps with
      | nil =>
        simp only [List.flatMap_cons, List.flatMap_nil, List.append_nil, hpe,
          List.foldl_cons, List.foldl_nil, hstep1]
        have : (⟨rt, repo, p.introduced, ""⟩ : AffectedRangeLegacy) = p := by
          rw [← hf]
          exact hpeq
        simp [exportFinish, hpi, this]
      | cons q qs =>
        have hgit : rt = "GIT" := by
          rcases h3 with hgit | hfx
          · exact hgit
          · exfalso
            exact hfx p (by rw [List.dropLast_cons₂]; exact List.mem_cons_self p _) hf
        subst hgit
        obtain ⟨hqt, hqr, hqi, hqi0⟩ := h1 q (List.mem_cons_of_mem p (List.mem_cons_self q qs))
        have hqpe : (q :: qs).flatMap pairEvents =
            introEvent q :: ((if q.fixed = "" then [] else [fixedEvent q]) ++
              qs.flatMap pairEvents) := by
          simp [pairEvents]
        have hopenp : (⟨"GIT", repo, p.introduced, ""⟩ : AffectedRangeLegacy) = p := by
          rw [← hf]
          exact hpeq
        calc exportFinish (((p :: q :: qs).flatMap pairEvents).foldl
              (exportStep "GIT" repo) (acc, freshRange "GIT" repo))
            = exportFinish (((q :: qs).flatMap pairEvents).foldl
                (exportStep "GIT" repo) (acc, ⟨"GIT", repo, p.introduced, ""⟩)) := by
              simp only [List.flatMap_cons, hpe, List.singleton_append,
                List.foldl_cons, hstep1]
          _ = exportFinish (((q :: qs).flatMap pairEvents).foldl
                (exportStep "GIT" repo) (acc ++ [p], freshRange "GIT" repo)) := by
              rw [hqpe, List.foldl_cons, List.foldl_cons,
                exportStep_reopen repo (introEvent q) rfl acc
                  ⟨"GIT", repo, p.introduced, ""⟩ hpi,
                hopenp]
          _ = (acc ++ [p]) ++ (q :: qs) := by
              refine ih (acc ++ [p]) (fun r hr => h1 r (List.mem_cons_of_mem p hr)) ?_
              rcases h3 with hgit | hfx
              · exact Or.inl hgit
              · exact Or.inr (fun r hr => hfx r
                  (by rw [List.dropLast_cons₂]; exact List.mem_cons_of_mem p hr))
          _ = acc ++ (p :: q :: qs) := by simp
    · have hpe : pairEvents p = [introEvent p, fixedEvent p] := by
        simp [pairEvents, hf]
      have hstep2 : exportStep rt repo (acc, ⟨rt, repo, p.introduced, ""⟩)
          (fixedEvent p) = (acc ++ [p], freshRange rt repo) := by
        simp [exportStep, fixedEvent, freshRange]
        exact hpeq
      have hrest : ∀ r ∈ ps.dropLast, r ∈ (p :: ps).dropLast := by
        intro r hr
        cases ps with
        | nil => simp at hr
        | cons q qs =>
          rw [List.dropLast_cons₂]
          exact List.mem_cons_of_mem p hr
      calc exportFinish (((p :: ps).flatMap pairEvents).foldl
            (exportStep rt repo) (acc, freshRange rt repo))
          = exportFinish ((ps.flatMap pairEvents).foldl
              (exportStep rt repo) (acc ++ [p], freshRange rt repo)) := by
            simp only [List.flatMap_cons, hpe, List.cons_append, List.nil_append,
              List.foldl_cons, hstep1, hstep2]
        _ = (acc ++ [p]) ++ ps := by
            refine ih (acc ++ [p]) (fun r hr => h1 r (List.mem_cons_of_mem p hr)) ?_
            rcases h3 with hgit | hfx
            · exact Or.inl hgit
            · exact Or.inr (fun r hr => hfx r (hrest r hr))
        _ = acc ++ (p :: ps) := by simp

/-- The `sorted_events` is the identity on an already-sorted stream without
sentinel values. -/
theorem sorted_events_id {α : Type} [LinearOrder α] (key : String → α)
    (rt : String) (evs : List AffectedEvent) (hrt : rt ≠ "GIT")
    (hz : ∀ e ∈ evs, e.value ≠ "0")
    (hs : evs.Pairwise (fun a b => key a.value ≤ key b.value)) :
    sorted_events key rt evs = evs := by
  rw [sorted_events_not_git key rt evs hrt]
  have h1 : evs.filter (fun e => e.value == "0") = [] := by
    rw [List.filter_eq_nil_iff]
    intro e he
    simp [hz e he]
  have h2 : evs.filter (fun e => e.value != "0") = evs := by
    rw [List.filter_eq_self]
    intro e he
    simp [hz e he]
  rw [h1, h2]
  simp [List.Sorted.insertionSort_eq hs]

end OSV

/-! ## Claims -/

namespace OSV

/-- C2.  Event sorting: `sorted_events` returns GIT event lists unchanged;
for any other range type it removes every sentinel-"0" event, stably
sorts the rest ascending by the comparator's sort key, and re-inserts the
(last) sentinel event at position 0; and the concrete SEMVER example
sorts as the spec states. -/
theorem sorted_events_spec {α : Type} [LinearOrder α] (key : String → α)
    (rt : String) (evs : List AffectedEvent) :
    sorted_events key "GIT" evs = evs
    ∧ (rt ≠ "GIT" →
        sorted_events key rt evs =
          ((evs.filter (fun e => e.value == "0")).getLast?).toList ++
            List.insertionSort (fun a b => key a.value ≤ key b.value)
              (evs.filter (fun e => e.value != "0"))
        ∧ (List.insertionSort (fun a b => key a.value ≤ key b.value)
            (evs.filter (fun e => e.value != "0"))).Pairwise
              (fun a b => key a.value ≤ key b.value)
        ∧ (List.insertionSort (fun a b => key a.value ≤ key b.value)
            (evs.filter (fun e => e.value != "0"))).Perm
              (evs.filter (fun e => e.value != "0")))
    ∧ sorted_events semverKey "SEMVER"
        [⟨"fixed", "2.0.0"⟩, ⟨"introduced", "0"⟩, ⟨"introduced", "1.5.0"⟩] =
        [⟨"introduced", "0"⟩, ⟨"introduced", "1.5.0"⟩, ⟨"fixed", "2.0.0"⟩] := by
  refine ⟨by unfold sorted_events; simp,
    fun h => ⟨sorted_events_not_git key rt evs h, ?_, ?_⟩, by decide⟩
  · have := eventLE_total key
    have := eventLE_trans key
    exact List.sorted_insertionSort _ _
  · exact List.perm_insertionSort _ _

/-- Witness for C2 at a concrete non-GIT input. -/
theorem sorted_events_spec_witness :
    sorted_events semverKey "SEMVER"
      [⟨"fixed", "2.0.0"⟩, ⟨"introduced", "0"⟩] =
      (([⟨"fixed", "2.0.0"⟩, ⟨"introduced", "0"⟩] :
          List AffectedEvent).filter (fun e => e.value == "0")).getLast?.toList ++
        List.insertionSort (fun a b => semverKey a.value ≤ semverKey b.value)
          (([⟨"fixed", "2.0.0"⟩, ⟨"introduced", "0"⟩] :
            List AffectedEvent).filter (fun e => e.value != "0")) :=
  ((sorted_events_spec semverKey "SEMVER"
    [⟨"fixed", "2.0.0"⟩, ⟨"introduced", "0"⟩]).2.1 (by decide)).1

/-- C8.  On a non-GIT range type the output of `sorted_events` contains at
most one sentinel-"0" event; when the input has any, the one re-inserted
at position 0 is the last one encountered and no sentinel remains in the
tail. -/
theorem sorted_events_single_sentinel {α : Type} [LinearOrder α]
    (key : String → α) (rt : String) (evs : List AffectedEvent)
    (h : rt ≠ "GIT") :
    ((sorted_events key rt evs).countP (fun e => e.value == "0") ≤ 1)
    ∧ ∀ z, (evs.filter (fun e => e.value == "0")).getLast? = some z →
        (sorted_events key rt evs).head? = some z
        ∧ ((sorted_events key rt evs).tail.countP (fun e => e.value == "0") = 0) := by
  rw [sorted_events_not_git key rt evs h]
  have hz := countP_zero_insertionSort key evs
  constructor
  · cases hlast : (evs.filter (fun e => e.value == "0")).getLast? with
    | none => simp [hz]
    | some z =>
      simp only [Option.toList, List.cons_append, List.nil_append,
        List.countP_cons, hz]
      split <;> simp
  · intro z hlast
    rw [hlast]
    exact ⟨rfl, hz⟩

/-- Witness for C8 at a concrete non-GIT input. -/
theorem sorted_events_single_sentinel_witness :
    ((sorted_events semverKey "SEMVER"
      [⟨"introduced", "0"⟩, ⟨"fixed", "0"⟩, ⟨"fixed", "1.0.0"⟩]).countP
        (fun e => e.value == "0") ≤ 1)
    ∧ (sorted_events semverKey "SEMVER"
        [⟨"introduced", "0"⟩, ⟨"fixed", "0"⟩, ⟨"fixed", "1.0.0"⟩]).head? =
        some ⟨"fixed", "0"⟩
    ∧ ((sorted_events semverKey "SEMVER"
        [⟨"introduced", "0"⟩, ⟨"fixed", "0"⟩, ⟨"fixed", "1.0.0"⟩]).tail.countP
          (fun e => e.value == "0") = 0) := by
  obtain ⟨ha, hb⟩ := sorted_events_single_sentinel semverKey "SEMVER"
    [⟨"introduced", "0"⟩, ⟨"fixed", "0"⟩, ⟨"fixed", "1.0.0"⟩] (by decide)
  obtain ⟨hc, hd⟩ := hb ⟨"fixed", "0"⟩ (by decide)
  exact ⟨ha, hc, hd⟩

/-- C3.  The export cursor: an `introduced` event while a pair is open and
the range type is GIT emits the open pair (without touching its fixed
bound) and starts a new pair holding the event's value (the sentinel "0"
stored as empty); a sentinel `introduced` on a pair with no introduced
bound is stored as the empty string; and at end of range an open pair is
emitted exactly when its introduced bound is non-empty. -/
theorem export_cursor_spec (rt repo v : String)
    (acc : List AffectedRangeLegacy) (cur : AffectedRangeLegacy) :
    (cur.introduced ≠ "" →
      exportStep "GIT" repo (acc, cur) ⟨"introduced", v⟩ =
        (acc ++ [cur],
          { freshRange "GIT" repo with introduced := if v = "0" then "" else v }))
    ∧ (cur.introduced = "" →
        exportStep rt repo (acc, cur) ⟨"introduced", "0"⟩ =
          (acc, { cur with introduced := "" }))
    ∧ (cur.introduced ≠ "" → exportFinish (acc, cur) = acc ++ [cur])
    ∧ (cur.introduced = "" → exportFinish (acc, cur) = acc) := by
  refine ⟨fun h => ?_, fun h => ?_, fun h => ?_, fun h => ?_⟩
  · simp [exportStep, freshRange, h]
  · simp [exportStep, freshRange, h]
  · simp [exportFinish, h]
  · simp [exportFinish, h]

/-- Witness for C3 at concrete inputs. -/
theorem export_cursor_spec_witness :
    (exportStep "GIT" "r" ([], ⟨"GIT", "r", "a", ""⟩) ⟨"introduced", "c"⟩ =
      ([⟨"GIT", "r", "a", ""⟩],
        { freshRange "GIT" "r" with introduced := if "c" = "0" then "" else "c" }))
    ∧ (exportStep "SEMVER" "" ([], freshRange "SEMVER" "") ⟨"introduced", "0"⟩ =
        ([], { freshRange "SEMVER" "" with introduced := "" }))
    ∧ (exportFinish ([], ⟨"GIT", "r", "a", ""⟩) = [] ++ [⟨"GIT", "r", "a", ""⟩])
    ∧ (exportFinish ([], freshRange "SEMVER" "") = []) := by
  have h1 := (export_cursor_spec "GIT" "r" "c" [] ⟨"GIT", "r", "a", ""⟩).1 (by decide)
  have h2 := (export_cursor_spec "SEMVER" "" "0" [] (freshRange "SEMVER" "")).2.1 (by decide)
  have h3 := (export_cursor_spec "GIT" "r" "c" [] ⟨"GIT", "r", "a", ""⟩).2.2.1 (by decide)
  have h4 := (export_cursor_spec "SEMVER" "" "0" [] (freshRange "SEMVER" "")).2.2.2 (by decide)
  exact ⟨h1, h2, h3, h4⟩

/-- C9.  A `fixed` event reaching the cursor while the open pair has no
introduced bound still emits a pair, with an empty introduced bound and
that fixed value; end to end, a GIT range holding a single fixed event
exports exactly that pair. -/
theorem export_fixed_without_introduced (rt repo v : String)
    (acc : List AffectedRangeLegacy) :
    exportStep rt repo (acc, freshRange rt repo) ⟨"fixed", v⟩ =
      (acc ++ [⟨rt, repo, "", v⟩], freshRange rt repo)
    ∧ get_pre_0_8_affects_range semverKey ⟨"GIT", repo, [⟨"fixed", v⟩]⟩ =
        [⟨"GIT", repo, "", v⟩] := by
  constructor
  · simp [exportStep, freshRange]
  · simp [get_pre_0_8_affects_range, sorted_events, exportPairs, exportStep,
      exportFinish, freshRange]

/-- String `==` is `decide` of equality. -/
theorem string_beq_decide (a b : String) : (a == b) = decide (a = b) := by
  by_cases h : a = b <;> simp [h]

/-- The `getLast?` of a cons, head as the fallback. -/
theorem getLast?_cons_or {γ : Type} (a : γ) (l : List γ) :
    (a :: l).getLast? = (l.getLast?).or (some a) := by
  induction l generalizing a with
  | nil => rfl
  | cons b l ih =>
    rw [List.getLast?_cons_cons, ih b]
    cases h : l.getLast? with
    | none => simp [ih b, h]
    | some c => simp [ih b, h]

/-- The inner event loop computes "some fixed event seen" and the last
fixed event's value. -/
theorem eventFold_spec (evs : List AffectedEvent) (b : Bool) (o : Option String) :
    evs.foldl eventFold (b, o) =
      (b || evs.any (fun e => e.type == "fixed"), (lastFixedVal evs).or o) := by
  induction evs generalizing b o with
  | nil => simp [lastFixedVal]
  | cons e rest ih =>
    by_cases he : e.type = "fixed"
    · rw [List.foldl_cons]
      rw [show eventFold (b, o) e = (true, some e.value) by simp [eventFold, he]]
      rw [ih true (some e.value)]
      have hfilter : (e :: rest).filter (fun e => e.type == "fixed") =
          e :: rest.filter (fun e => e.type == "fixed") := by
        simp [he]
      simp only [Prod.mk.injEq]
      refine ⟨by simp [he], ?_⟩
      simp only [lastFixedVal, hfilter, getLast?_cons_or]
      cases h : (rest.filter (fun e => e.type == "fixed")).getLast? <;> simp [h]
    · rw [List.foldl_cons]
      rw [show eventFold (b, o) e = (b, o) by simp [eventFold, he]]
      rw [ih b o]
      have hfilter : (e :: rest).filter (fun e => e.type == "fixed") =
          rest.filter (fun e => e.type == "fixed") := by
        simp [he]
      have hb : (e.type == "fixed") = false := by simp [he]
      simp [lastFixedVal, hfilter, hb]

/-- The contribution of one range to the derived fields. -/
theorem rangeFold_spec (n : String → String) (s : DerivedFields)
    (r : AffectedRange2) :
    rangeFold n s r =
      ⟨s.affected_fuzzy,
       s.semver_fixed_indexes ++
         (if r.type = "SEMVER" then [n (orNotFixed (lastFixedVal r.events))]
          else []),
       s.has_affected || (r.type == "SEMVER" || r.type == "ECOSYSTEM"),
       s.is_fixed || r.events.any (fun e => e.type == "fixed")⟩ := by
  unfold rangeFold
  rw [eventFold_spec r.events s.is_fixed none]
  by_cases ht : r.type = "SEMVER" <;>
    cases h : lastFixedVal r.events <;>
      simp [ht, h, Option.or, string_beq_decide]

/-- The contribution of a list of ranges to the derived fields. -/
theorem rangesFold_spec (n : String → String) (s : DerivedFields)
    (ranges : List AffectedRange2) :
    ranges.foldl (rangeFold n) s =
      ⟨s.affected_fuzzy,
       s.semver_fixed_indexes ++
         (ranges.filter (fun r => r.type == "SEMVER")).map
           (fun r => n (orNotFixed (lastFixedVal r.events))),
       s.has_affected ||
         ranges.any (fun r => r.type == "SEMVER" || r.type == "ECOSYSTEM"),
       s.is_fixed ||
         ranges.any (fun r => r.events.any (fun e => e.type == "fixed"))⟩ := by
  induction ranges generalizing s with
  | nil => simp
  | cons r rest ih =>
    rw [List.foldl_cons, rangeFold_spec, ih]
    by_cases ht : r.type = "SEMVER" <;>
      simp [ht, Bool.or_assoc]

/-- The contribution of one package to the derived fields. -/
theorem pkgFold_spec (nt : List String → List String) (n : String → String)
    (s : DerivedFields) (p : AffectedPackage) :
    pkgFold nt n s p =
      ⟨s.affected_fuzzy ++ nt p.versions,
       s.semver_fixed_indexes ++
         (p.ranges.filter (fun r => r.type == "SEMVER")).map
           (fun r => n (orNotFixed (lastFixedVal r.events))),
       s.has_affected || (!p.versions.isEmpty ||
         p.ranges.any (fun r => r.type == "SEMVER" || r.type == "ECOSYSTEM")),
       s.is_fixed ||
         p.ranges.any (fun r => r.events.any (fun e => e.type == "fixed"))⟩ := by
  unfold pkgFold
  rw [rangesFold_spec]
  simp [Bool.or_assoc]

/-- The contribution of a list of packages to the derived fields. -/
theorem pkgsFold_spec (nt : List String → List String) (n : String → String)
    (s : DerivedFields) (pkgs : List AffectedPackage) :
    pkgs.foldl (pkgFold nt n) s =
      ⟨s.affected_fuzzy ++ pkgs.flatMap (fun p => nt p.versions),
       s.semver_fixed_indexes ++
         (pkgs.flatMap (fun p => p.ranges.filter (fun r => r.type == "SEMVER"))).map
           (fun r => n (orNotFixed (lastFixedVal r.events))),
       s.has_affected || pkgs.any (fun p => !p.versions.isEmpty ||
         p.ranges.any (fun r => r.type == "SEMVER" || r.type == "ECOSYSTEM")),
       s.is_fixed || pkgs.any (fun p =>
         p.ranges.any (fun r => r.events.any (fun e => e.type == "fixed")))⟩ := by
  induction pkgs generalizing s with
  | nil => simp
  | cons p rest ih =>
    rw [List.foldl_cons, pkgFold_spec, ih]
    simp [Bool.or_assoc]

/-- C5 (amended).  Derived fields: `is_fixed` is true iff some range
across any affected package contains a fixed event; `has_affected` is
true iff some package has explicit versions or some range is
SEMVER/ECOSYSTEM; and `semver_fixed_indexes` has exactly one entry per
SEMVER range in package-then-range order, the normalized value of the
range's last fixed event, with the normalized 999999.999999.999999
sentinel when the range has no fixed event or the last fixed event's
value is empty (the fallback is on falsiness, not absence). -/
theorem derived_fields_spec (nt : List String → List String)
    (n : String → String) (pkgs : List AffectedPackage) :
    (deriveFields nt n pkgs).is_fixed =
      pkgs.any (fun p => p.ranges.any (fun r =>
        r.events.any (fun e => e.type == "fixed")))
    ∧ (deriveFields nt n pkgs).has_affected =
      pkgs.any (fun p => !p.versions.isEmpty ||
        p.ranges.any (fun r => r.type == "SEMVER" || r.type == "ECOSYSTEM"))
    ∧ (deriveFields nt n pkgs).semver_fixed_indexes =
      (pkgs.flatMap (fun p => p.ranges.filter (fun r => r.type == "SEMVER"))).map
        (fun r => n (orNotFixed (((r.events.filter
          (fun e => e.type == "fixed")).getLast?).map (fun e => e.value)))) := by
  unfold deriveFields
  rw [pkgsFold_spec]
  exact ⟨rfl, rfl, rfl⟩

/-- Counterexample to C5 as stated: the sentinel fallback follows Python
falsiness, so a SEMVER range whose last fixed event carries an empty
value indexes the normalized sentinel, not the normalized value of that
(existing) last fixed event. -/
theorem derived_fields_counterexample :
    (deriveFields (fun l => l) (fun t => t)
      [⟨⟨"npm", "p", ""⟩, [⟨"SEMVER", "", [⟨"fixed", ""⟩]⟩], []⟩]).semver_fixed_indexes =
      ["999999.999999.999999"]
    ∧ ((([(⟨"fixed", ""⟩ : AffectedEvent)] : List AffectedEvent).filter
        (fun e => e.type == "fixed")).getLast?).map (fun e => e.value) = some ""
    ∧ (["999999.999999.999999"] : List String) ≠ [(fun t => t) ""] := by
  decide

/-- C10.  Limit events never affect the export: the pairs exported from a
range equal the pairs computed from its sorted event stream with every
`limit` event dropped. -/
theorem export_ignores_limit {α : Type} [LinearOrder α] (key : String → α)
    (r : AffectedRange2) :
    get_pre_0_8_affects_range key r =
      exportPairs r.type r.repo_url
        ((sorted_events key r.type r.events).filter (fun e => e.type != "limit")) := by
  unfold get_pre_0_8_affects_range exportPairs
  congr 1
  generalize sorted_events key r.type r.events = evs
  generalize hs : (([] : List AffectedRangeLegacy), freshRange r.type r.repo_url) = s
  clear hs
  induction evs generalizing s with
  | nil => rfl
  | cons e rest ih =>
    by_cases he : e.type = "limit"
    · have hstep : exportStep r.type r.repo_url s e = s := by
        simp [exportStep, he]
      simp [he, hstep, ih]
    · simp [he, ih]

/-- C4.  Legacy-to-canonical merge: previous ranges are fully replaced
(the result never depends on them); one range is emitted per `(type,
repo)` group in first-seen order, tagged with the repository URL exactly
when the type is GIT and a repository is present, holding the events
folded from exactly that group's pairs; every emitted event list is
duplicate-free; and a group's events are exactly one introduced event per
pair (empty introduced defaulting to the sentinel "0") plus one fixed
event per pair that specifies one, structural duplicates skipped. -/
theorem merge_spec (prev prev' : List AffectedRange2)
    (pairs : List AffectedRangeLegacy) :
    update_from_vulnerability_ranges prev pairs =
      update_from_vulnerability_ranges prev' pairs
    ∧ update_from_vulnerability_ranges prev pairs =
        (firstSeenKeys pairs).map (fun k =>
          { type := k.1
            repo_url := if k.1 = "GIT" ∧ k.2 ≠ "" then k.2 else ""
            events := (pairs.filter (fun p => groupKey p = k)).foldl addPairEvents [] })
    ∧ (∀ r ∈ update_from_vulnerability_ranges prev pairs, r.events.Nodup)
    ∧ (∀ k : String × String, ∀ e : AffectedEvent,
        e ∈ (pairs.filter (fun p => groupKey p = k)).foldl addPairEvents [] ↔
          ∃ p ∈ pairs, groupKey p = k ∧
            (e = introEvent p ∨ (p.fixed ≠ "" ∧ e = fixedEvent p))) := by
  have hmain : update_from_vulnerability_ranges prev pairs =
      (firstSeenKeys pairs).map (fun k =>
        { type := k.1
          repo_url := if k.1 = "GIT" ∧ k.2 ≠ "" then k.2 else ""
          events := (pairs.filter (fun p => groupKey p = k)).foldl addPairEvents []
          : AffectedRange2 }) := by
    unfold update_from_vulnerability_ranges
    rw [foldl_updEventsByType pairs [] (by simp)]
    simp only [List.map_nil, List.nil_append, firstSeenKeys, List.map_map]
    rfl
  refine ⟨rfl, hmain, ?_, ?_⟩
  · intro r hr
    rw [hmain] at hr
    obtain ⟨k, _, rfl⟩ := List.mem_map.mp hr
    exact foldl_addPairEvents_nodup _ [] List.nodup_nil
  · intro k e
    rw [mem_foldl_addPairEvents]
    simp only [List.mem_nil_iff, false_or, List.mem_filter, decide_eq_true_eq]
    constructor
    · rintro ⟨q, ⟨hq, hk⟩, hc⟩
      exact ⟨q, hq, hk, hc⟩
    · rintro ⟨q, hq, hk, hc⟩
      exact ⟨q, ⟨hq, hk⟩, hc⟩

/-- C7.  Validation: severity, range-type and event-type values outside
their allowed sets each raise a distinct `ValueError` through their
property validators before the entity can be persisted; the pre-put hook
aborts with "Source not specified" when the record has no source
provenance, and with the distinct "DB ID not specified" when only the
stable identifier is missing. -/
theorem validation_spec (v : String) (nt : List String → List String)
    (n : String → String) (gr : String → Option SourceRepository) (now : Nat)
    (b : Bug) (kk : String) :
    (check_valid_severity v = Except.ok () ↔
      (v = "LOW" ∨ v = "MEDIUM" ∨ v = "HIGH" ∨ v = "CRITICAL"))
    ∧ (¬(v = "LOW" ∨ v = "MEDIUM" ∨ v = "HIGH" ∨ v = "CRITICAL") →
        check_valid_severity v = Except.error ("Invalid severity: " ++ v))
    ∧ (check_valid_range_type v = Except.ok () ↔
        (v = "GIT" ∨ v = "SEMVER" ∨ v = "ECOSYSTEM"))
    ∧ (¬(v = "GIT" ∨ v = "SEMVER" ∨ v = "ECOSYSTEM") →
        check_valid_range_type v = Except.error ("Invalid range type: " ++ v))
    ∧ (check_valid_event_type v = Except.ok () ↔
        (v = "introduced" ∨ v = "fixed" ∨ v = "limit"))
    ∧ (¬(v = "introduced" ∨ v = "fixed" ∨ v = "limit") →
        check_valid_event_type v = Except.error ("Invalid event type: " ++ v))
    ∧ (b.db_id ≠ "" → b.source_id = "" → b.source = "" →
        pre_put_hook nt n gr now b = Except.error "Source not specified for Bug.")
    ∧ (b.db_id = "" → b.key = some kk → b.source_id = "" → b.source ≠ "" →
        pre_put_hook nt n gr now b = Except.error "DB ID not specified for Bug.")
    ∧ ("Source not specified for Bug." : String) ≠ "DB ID not specified for Bug." := by
  refine ⟨?_, ?_, ?_, ?_, ?_, ?_, ?_, ?_, by decide⟩
  · unfold check_valid_severity
    split <;> simp_all
  · intro h
    unfold check_valid_severity
    rw [if_neg h]
  · unfold check_valid_range_type
    split <;> simp_all
  · intro h
    unfold check_valid_range_type
    rw [if_neg h]
  · unfold check_valid_event_type
    split <;> simp_all
  · intro h
    unfold check_valid_event_type
    rw [if_neg h]
  · intro hdb hsid hsrc
    obtain ⟨_, _, _, _, _, hsrc2⟩ := hookDerive_proj nt n now b.db_id b
    simp only [hsid, if_neg (by simp : ¬("" : String) ≠ ""), hsrc] at hsrc2
    simp [pre_put_hook, Bug.bugId, hdb, Bind.bind, Except.bind, pure, Except.pure,
      throw, throwThe, MonadExceptOf.throw, hsrc2]
  · intro hdb hkey hsid hsrc
    have hbid : b.bugId = Except.ok (if (match kk.data with
        | c :: _ => c.isDigit | [] => false) then "OSV-" ++ kk else kk) := by
      simp [Bug.bugId, hdb, hkey, pure, Except.pure]
    obtain ⟨hdb2, _, _, _, _, hsrc2⟩ := hookDerive_proj nt n now
      (if (match kk.data with | c :: _ => c.isDigit | [] => false) then
        "OSV-" ++ kk else kk) b
    simp only [hsid, if_neg (by simp : ¬("" : String) ≠ "")] at hsrc2
    simp [pre_put_hook, hbid, Bind.bind, Except.bind, pure, Except.pure,
      throw, throwThe, MonadExceptOf.throw, hsrc2, hsrc, hdb2, hdb]

/-- Witness for C7: severity "SEVERE" fails; a record with an id but no
source provenance fails on the source check; a record with a key and a
source but an empty id fails on the distinct id check. -/
theorem validation_spec_witness :
    check_valid_severity "SEVERE" = Except.error "Invalid severity: SEVERE"
    ∧ pre_put_hook (fun l => l) (fun t => t) (fun _ => none) 0
        ⟨"OSV-1", none, "", "", "", [], [], [], [], [], [], false, false, none, []⟩ =
        Except.error "Source not specified for Bug."
    ∧ pre_put_hook (fun l => l) (fun t => t) (fun _ => none) 0
        ⟨"", some "k", "", "test", "", [], [], [], [], [], [], false, false, none, []⟩ =
        Except.error "DB ID not specified for Bug."
    ∧ ("Source not specified for Bug." : String) ≠ "DB ID not specified for Bug." := by
  refine ⟨?_, ?_, ?_, ?_⟩
  · exact (validation_spec "SEVERE" (fun l => l) (fun t => t) (fun _ => none) 0
      ⟨"OSV-1", none, "", "", "", [], [], [], [], [], [], false, false, none, []⟩
      "k").2.1 (by decide)
  · exact (validation_spec "SEVERE" (fun l => l) (fun t => t) (fun _ => none) 0
      ⟨"OSV-1", none, "", "", "", [], [], [], [], [], [], false, false, none, []⟩
      "k").2.2.2.2.2.2.1 (by decide) rfl rfl
  · exact (validation_spec "SEVERE" (fun l => l) (fun t => t) (fun _ => none) 0
      ⟨"", some "k", "", "test", "", [], [], [], [], [], [], false, false, none, []⟩
      "k").2.2.2.2.2.2.2.1 rfl rfl rfl (by decide)
  · exact (validation_spec "SEVERE" (fun l => l) (fun t => t) (fun _ => none) 0
      ⟨"OSV-1", none, "", "", "", [], [], [], [], [], [], false, false, none, []⟩
      "k").2.2.2.2.2.2.2.2

/-- C6.  Idempotent derivation: a record the pre-put hook has accepted
passes through a second run (at any later clock) completely unchanged, so
all derived fields (search_indices, affected_fuzzy, semver_fixed_indexes,
has_affected, is_fixed) are identical; search_indices is always sorted
and duplicate-free; and a caller-supplied last_modified timestamp is
never overwritten. -/
theorem derive_idempotent (nt : List String → List String) (n : String → String)
    (gr : String → Option SourceRepository) (now now' : Nat) (b b1 : Bug)
    (h : pre_put_hook nt n gr now b = Except.ok b1) :
    pre_put_hook nt n gr now' b1 = Except.ok b1
    ∧ List.Sorted (fun x y : String => x.data ≤ y.data) b1.search_indices
    ∧ b1.search_indices.Nodup
    ∧ (∀ t, b.last_modified = some t → b1.last_modified = some t) := by
  have hdb : b.db_id ≠ "" := by
    intro hdb
    rcases hk : b.key with _ | k
    · simp [pre_put_hook, Bug.bugId, hdb, hk, Bind.bind, Except.bind] at h
    · have hbid : b.bugId = Except.ok (if (match k.data with
          | c :: _ => c.isDigit | [] => false) then "OSV-" ++ k else k) := by
        simp [Bug.bugId, hdb, hk, pure, Except.pure]
      by_cases hcs : (hookDerive nt n now (if (match k.data with
          | c :: _ => c.isDigit | [] => false) then "OSV-" ++ k else k) b).source = ""
      · simp [pre_put_hook, hbid, Bind.bind, Except.bind, throw, throwThe,
          MonadExceptOf.throw, hcs] at h
      · have hdb2 := (hookDerive_proj nt n now (if (match k.data with
          | c :: _ => c.isDigit | [] => false) then "OSV-" ++ k else k) b).1
        simp [pre_put_hook, hbid, Bind.bind, Except.bind, pure, Except.pure,
          throw, throwThe, MonadExceptOf.throw, hcs, hdb2, hdb] at h
  have hbid : b.bugId = Except.ok b.db_id := by
    simp [Bug.bugId, hdb, pure, Except.pure]
  have hlm2 := (hookDerive_proj nt n now b.db_id b).2.2.2.2.1
  have hdbc : ¬((hookDerive nt n now b.db_id b).db_id = "") := by
    rw [(hookDerive_proj nt n now b.db_id b).1]
    exact hdb
  by_cases hcs : (hookDerive nt n now b.db_id b).source = ""
  · simp [pre_put_hook, hbid, Bind.bind, Except.bind, throw, throwThe,
      MonadExceptOf.throw, hcs] at h
  rcases hk : b.key with _ | k0
  · rcases hr : gr (hookDerive nt n now b.db_id b).source with _ | repo
    · have hck : (hookDerive nt n now b.db_id b).key = none := by
        rw [(hookDerive_proj nt n now b.db_id b).2.1, hk]
      simp [pre_put_hook, hbid, Bind.bind, Except.bind, pure, Except.pure, throw,
        throwThe, MonadExceptOf.throw, hcs, hdbc, hck, hr] at h
    · have hck : (hookDerive nt n now b.db_id b).key = none := by
        rw [(hookDerive_proj nt n now b.db_id b).2.1, hk]
      simp only [pre_put_hook, hbid, Bind.bind, Except.bind, pure, Except.pure,
        throw, throwThe, MonadExceptOf.throw, Except.ok.injEq] at h
      rw [if_neg hcs, if_neg hdbc] at h
      rw [hck, hr] at h
      simp only [Except.ok.injEq] at h
      refine ⟨?_, ?_, ?_, ?_⟩
      · rw [← h]
        exact hook_second_run_new_key nt n gr now now' b _ hdb hcs
      · rw [← h]
        show List.Sorted (fun x y : String => x.data ≤ y.data)
          (hookDerive nt n now b.db_id b).search_indices
        rw [hookDerive_search]
        exact dedupSort_sorted _
      · rw [← h]
        show ((hookDerive nt n now b.db_id b).search_indices).Nodup
        rw [hookDerive_search]
        exact dedupSort_nodup _
      · intro t ht
        rw [← h]
        show (hookDerive nt n now b.db_id b).last_modified = some t
        rw [hlm2, ht]
        rfl
  · have hck : (hookDerive nt n now b.db_id b).key = some k0 := by
      rw [(hookDerive_proj nt n now b.db_id b).2.1, hk]
    simp only [pre_put_hook, hbid, Bind.bind, Except.bind, pure, Except.pure,
      throw, throwThe, MonadExceptOf.throw, Except.ok.injEq] at h
    rw [if_neg hcs, if_neg hdbc] at h
    rw [hck] at h
    simp only [Except.ok.injEq] at h
    refine ⟨?_, ?_, ?_, ?_⟩
    · rw [← h]
      exact hook_second_run_kept_key nt n gr now now' b k0 hdb hcs hk
    · rw [← h]
      rw [hookDerive_search]
      exact dedupSort_sorted _
    · rw [← h]
      rw [hookDerive_search]
      exact dedupSort_nodup _
    · intro t ht
      rw [← h, hlm2, ht]
      rfl

/-- Witness for C6 at a concrete record that passes the hook. -/
theorem derive_idempotent_witness :
    pre_put_hook (fun l => l) (fun t => t) (fun _ => some ⟨"OSV-"⟩) 9
      ⟨"OSV-2021-111", some "OSV-2021-111", "oss-fuzz:123", "oss-fuzz", "",
       ["left-pad"], ["npm"], [],
       ["111", "2021", "left", "left-pad", "npm", "osv", "osv-2021-111", "pad"],
       ["1.0.0"], ["999999.999999.999999"], true, false, some 3,
       [⟨⟨"npm", "left-pad", ""⟩, [⟨"SEMVER", "", [⟨"introduced", "1.0.0"⟩]⟩], ["1.0.0"]⟩]⟩ =
      Except.ok
      ⟨"OSV-2021-111", some "OSV-2021-111", "oss-fuzz:123", "oss-fuzz", "",
       ["left-pad"], ["npm"], [],
       ["111", "2021", "left", "left-pad", "npm", "osv", "osv-2021-111", "pad"],
       ["1.0.0"], ["999999.999999.999999"], true, false, some 3,
       [⟨⟨"npm", "left-pad", ""⟩, [⟨"SEMVER", "", [⟨"introduced", "1.0.0"⟩]⟩], ["1.0.0"]⟩]⟩
    ∧ List.Sorted (fun x y : String => x.data ≤ y.data)
        ["111", "2021", "left", "left-pad", "npm", "osv", "osv-2021-111", "pad"]
    ∧ (["111", "2021", "left", "left-pad", "npm", "osv", "osv-2021-111", "pad"] :
        List String).Nodup
    ∧ (⟨"OSV-2021-111", some "OSV-2021-111", "oss-fuzz:123", "oss-fuzz", "",
       ["left-pad"], ["npm"], [],
       ["111", "2021", "left", "left-pad", "npm", "osv", "osv-2021-111", "pad"],
       ["1.0.0"], ["999999.999999.999999"], true, false, some 3,
       [⟨⟨"npm", "left-pad", ""⟩, [⟨"SEMVER", "", [⟨"introduced", "1.0.0"⟩]⟩], ["1.0.0"]⟩]⟩ :
       Bug).last_modified = some 3 := by
  obtain ⟨h1, h2, h3, h4⟩ := derive_idempotent (fun l => l) (fun t => t)
    (fun _ => some ⟨"OSV-"⟩) 7 9
    ⟨"OSV-2021-111", none, "oss-fuzz:123", "", "", [], [], [], [], [], [], false,
     false, some 3,
     [⟨⟨"npm", "left-pad", ""⟩, [⟨"SEMVER", "", [⟨"introduced", "1.0.0"⟩]⟩], ["1.0.0"]⟩]⟩
    ⟨"OSV-2021-111", some "OSV-2021-111", "oss-fuzz:123", "oss-fuzz", "",
     ["left-pad"], ["npm"], [],
     ["111", "2021", "left", "left-pad", "npm", "osv", "osv-2021-111", "pad"],
     ["1.0.0"], ["999999.999999.999999"], true, false, some 3,
     [⟨⟨"npm", "left-pad", ""⟩, [⟨"SEMVER", "", [⟨"introduced", "1.0.0"⟩]⟩], ["1.0.0"]⟩]⟩
    (by rfl)
  exact ⟨h1, h2, h3, h4 3 rfl⟩

/-- Counterexample to C1 as stated: merging duplicate GIT pairs collapses
them, so the export is not multiset-equivalent to the input. -/
theorem roundtrip_counterexample :
    get_pre_0_8_affects semverKey (update_from_vulnerability_ranges []
      [⟨"GIT", "", "a", "b"⟩, ⟨"GIT", "", "a", "b"⟩]) = [⟨"GIT", "", "a", "b"⟩]
    ∧ ¬ ([(⟨"GIT", "", "a", "b"⟩ : AffectedRangeLegacy)].Perm
        [⟨"GIT", "", "a", "b"⟩, ⟨"GIT", "", "a", "b"⟩]) := by
  constructor
  · decide
  · intro hp
    have := hp.length_eq
    simp at this

/-- C1 (amended).  Round-trip: merging then exporting reproduces the input
pair list exactly, for pairs of one `(type, repository)` group whose
contributed events are pairwise distinct and whose introduced bounds are
non-empty and not "0" — for GIT always (overlapping/unbounded pairs
included), and for non-GIT types when additionally the repository is
empty, only the last pair may lack a fixed bound, no fixed bound is "0",
and the contributed events are already ascending in comparator order. -/
theorem roundtrip_amended {α : Type} [LinearOrder α] (key : String → α)
    (rt repo : String) (pairs : List AffectedRangeLegacy)
    (h1 : ∀ p ∈ pairs, p.type = rt ∧ p.repo = repo ∧ p.introduced ≠ "" ∧
      p.introduced ≠ "0")
    (h2 : (pairs.flatMap pairEvents).Nodup)
    (h3 : rt = "GIT" ∨ ((∀ p ∈ pairs.dropLast, p.fixed ≠ "")
      ∧ (∀ p ∈ pairs, p.fixed ≠ "0")
      ∧ (pairs.flatMap pairEvents).Pairwise (fun a b => key a.value ≤ key b.value)
      ∧ repo = "")) :
    get_pre_0_8_affects key (update_from_vulnerability_ranges [] pairs) = pairs := by
  cases pairs with
  | nil => rfl
  | cons q qs =>
    have hkeys : ∀ p ∈ q :: qs, groupKey p = (rt, repo) := by
      intro p hp
      obtain ⟨ht, hr, _, _⟩ := h1 p hp
      simp [groupKey, ht, hr]
    have hmerge : update_from_vulnerability_ranges [] (q :: qs) =
        [⟨rt, if rt = "GIT" ∧ repo ≠ "" then repo else "",
          (q :: qs).foldl addPairEvents []⟩] := by
      unfold update_from_vulnerability_ranges
      rw [foldl_updEventsByType (q :: qs) [] (by simp)]
      have hfsk : firstSeenNew (([] : List ((String × String) ×
          List AffectedEvent)).map Prod.fst) (q :: qs) = [(rt, repo)] := by
        simp only [List.map_nil]
        rw [firstSeenNew, if_neg (by simp)]
        rw [hkeys q (List.mem_cons_self q qs)]
        simp only [List.nil_append]
        rw [firstSeenNew_all_seen qs [(rt, repo)] (fun p hp => by
          simp [hkeys p (List.mem_cons_of_mem q hp)])]
      rw [hfsk]
      have hfilter : (q :: qs).filter (fun p => groupKey p = (rt, repo)) = q :: qs := by
        rw [List.filter_eq_self]
        intro p hp
        simp [hkeys p hp]
      simp only [List.map_nil, List.nil_append, List.map_cons, hfilter]
    rw [hmerge]
    have hevents : (q :: qs).foldl addPairEvents [] = (q :: qs).flatMap pairEvents := by
      have hcl := foldl_addPairEvents_clean (q :: qs) [] (by simpa using h2)
      simpa using hcl
    rw [hevents]
    have hrepo : (if rt = "GIT" ∧ repo ≠ "" then repo else "") = repo := by
      rcases h3 with hgit | ⟨_, _, _, hre⟩
      · by_cases hre : repo = "" <;> simp [hgit, hre]
      · simp [hre]
    rw [hrepo]
    have hsorted : sorted_events key rt ((q :: qs).flatMap pairEvents) =
        (q :: qs).flatMap pairEvents := by
      by_cases hgit : rt = "GIT"
      · simp [sorted_events, hgit]
      · rcases h3 with hgit2 | ⟨_, hfx0, hpw, _⟩
        · exact absurd hgit2 hgit
        · refine sorted_events_id key rt _ hgit ?_ hpw
          intro e he
          obtain ⟨p, hp, hpe⟩ := List.mem_flatMap.mp he
          by_cases hf : p.fixed = ""
          · have hei : e = introEvent p := by simpa [pairEvents, hf] using hpe
            rw [hei]
            simp [introEvent, (h1 p hp).2.2.1]
            exact (h1 p hp).2.2.2
          · have hei : e = introEvent p ∨ e = fixedEvent p := by
              simpa [pairEvents, hf] using hpe
            rcases hei with hei | hei
            · rw [hei]
              simp [introEvent, (h1 p hp).2.2.1]
              exact (h1 p hp).2.2.2
            · rw [hei]
              simpa [fixedEvent] using hfx0 p hp
    have h3e : rt = "GIT" ∨ ∀ p ∈ (q :: qs).dropLast, p.fixed ≠ "" := by
      rcases h3 with hgit | ⟨hfx, _, _, _⟩
      · exact Or.inl hgit
      · exact Or.inr hfx
    simp only [get_pre_0_8_affects, List.flatMap_cons, List.flatMap_nil,
      List.append_nil]
    show exportPairs rt repo
      (sorted_events key rt ((q :: qs).flatMap pairEvents)) = q :: qs
    rw [hsorted]
    have hexp := export_blocks rt repo (q :: qs) [] h1 h3e
    simpa [exportPairs] using hexp

/-- Witness for C1 (amended) at a GIT input with an unfixed middle pair
and at a sorted SEMVER input with an unbounded final pair. -/
theorem roundtrip_amended_witness :
    get_pre_0_8_affects semverKey (update_from_vulnerability_ranges []
      [⟨"GIT", "r", "a", "b"⟩, ⟨"GIT", "r", "c", ""⟩, ⟨"GIT", "r", "d", "e"⟩]) =
      [⟨"GIT", "r", "a", "b"⟩, ⟨"GIT", "r", "c", ""⟩, ⟨"GIT", "r", "d", "e"⟩]
    ∧ get_pre_0_8_affects semverKey (update_from_vulnerability_ranges []
      [⟨"SEMVER", "", "1.0.0", "1.5.0"⟩, ⟨"SEMVER", "", "2.0.0", ""⟩]) =
      [⟨"SEMVER", "", "1.0.0", "1.5.0"⟩, ⟨"SEMVER", "", "2.0.0", ""⟩] := by
  constructor
  · exact roundtrip_amended semverKey "GIT" "r"
      [⟨"GIT", "r", "a", "b"⟩, ⟨"GIT", "r", "c", ""⟩, ⟨"GIT", "r", "d", "e"⟩]
      (by decide) (by decide) (Or.inl rfl)
  · exact roundtrip_amended semverKey "SEMVER" ""
      [⟨"SEMVER", "", "1.0.0", "1.5.0"⟩, ⟨"SEMVER", "", "2.0.0", ""⟩]
      (by decide) (by decide) (Or.inr ⟨by decide, by decide, by decide, rfl⟩)

end OSV
